import Mathlib

/-!
Shallow embedding of the D2Q9 lattice-Boltzmann solver of
`src/hw0/lbm_solver-wo.py` (class `lbm_solver`), together with proofs of the
behavioural properties stated in the specification.

Modelling conventions:
* 32-bit floats are modelled as exact rationals (`ℚ`);
* the taichi fields `rho`, `vel`, `mask`, `f_old`, `f_new` of shape
  `(nx, ny)` become total functions `ℤ → ℤ → _`, so that reads at indices
  outside `[0, nx) × [0, ny)` can be talked about explicitly;
* each taichi kernel becomes a pure state-transformer `GridState → GridState`;
  top-level loops of one kernel run in sequence, and parallel grid loops whose
  per-cell writes are disjoint are modelled by sequential folds over the index
  lists in program order.
-/

namespace LBM

/-- Simulation parameters taken by `lbm_solver.__init__`: grid size `nx, ny`,
viscosity `niu`, boundary types (`0` Dirichlet, `1` Neumann) and values for
the four edges in the order left, top, right, bottom, the obstacle switch
`cy` and the obstacle centre/radius `cy_para`. -/
structure LBMParams where
  nx : ℕ
  ny : ℕ
  niu : ℚ
  bc_type : Fin 4 → ℕ
  bc_value : Fin 4 → ℚ × ℚ
  cy : ℕ
  cy_para : Fin 3 → ℚ

/-- The per-cell grid fields of the solver. -/
structure GridState where
  rho : ℤ → ℤ → ℚ
  vel : ℤ → ℤ → ℚ × ℚ
  mask : ℤ → ℤ → ℚ
  f_old : ℤ → ℤ → Fin 9 → ℚ
  f_new : ℤ → ℤ → Fin 9 → ℚ

/-- D2Q9 weights `self.w`. -/
def w : Fin 9 → ℚ := ![4/9, 1/9, 1/9, 1/9, 1/9, 1/36, 1/36, 1/36, 1/36]

/-- D2Q9 directions `self.e`. -/
def e : Fin 9 → ℤ × ℤ :=
  ![(0, 0), (1, 0), (0, 1), (-1, 0), (0, -1), (1, 1), (-1, 1), (-1, -1), (1, -1)]

/-- `self.tau = 3.0 * niu + 0.5`. -/
def tau (p : LBMParams) : ℚ := 3 * p.niu + 1/2

/-- `self.inv_tau = 1.0 / self.tau`. -/
def inv_tau (p : LBMParams) : ℚ := 1 / tau p

/-- The equilibrium distribution `f_eq(i, j, k)`: it reads the fields
`vel` and `rho` of the current state at cell `(i, j)`. -/
def f_eq (s : GridState) (i j : ℤ) (k : Fin 9) : ℚ :=
  ((w k) * s.rho i j) *
    (1 + 3 * (((e k).1 : ℚ) * (s.vel i j).1 + ((e k).2 : ℚ) * (s.vel i j).2)
       + 4.5 * (((e k).1 : ℚ) * (s.vel i j).1 + ((e k).2 : ℚ) * (s.vel i j).2) ^ 2
       - 1.5 * ((s.vel i j).1 ^ 2 + (s.vel i j).2 ^ 2))

/-- Cell `(i, j)` lies inside the allocated `(nx, ny)` fields. -/
def inB (p : LBMParams) (i j : ℤ) : Prop :=
  0 ≤ i ∧ i < (p.nx : ℤ) ∧ 0 ≤ j ∧ j < (p.ny : ℤ)

instance (p : LBMParams) (i j : ℤ) : Decidable (inB p i j) :=
  inferInstanceAs (Decidable (_ ∧ _ ∧ _ ∧ _))

/-- Cell `(i, j)` is interior, i.e. in `ti.ndrange((1, nx-1), (1, ny-1))`. -/
def interior (p : LBMParams) (i j : ℤ) : Prop :=
  1 ≤ i ∧ i < (p.nx : ℤ) - 1 ∧ 1 ≤ j ∧ j < (p.ny : ℤ) - 1

instance (p : LBMParams) (i j : ℤ) : Decidable (interior p i j) :=
  inferInstanceAs (Decidable (_ ∧ _ ∧ _ ∧ _))

/-- The `init` kernel: over every allocated cell it sets `vel = 0`,
`rho = 1`, `mask` to `1` inside the obstacle disc (when `cy == 1`) and `0`
otherwise, and then `f_new = f_old = f_eq` of the just-written cell state. -/
def init (p : LBMParams) (s : GridState) : GridState :=
  let s1 : GridState :=
    { s with
      vel := fun i j => if inB p i j then (0, 0) else s.vel i j
      rho := fun i j => if inB p i j then 1 else s.rho i j
      mask := fun i j =>
        if inB p i j then
          if p.cy = 1 ∧
              ((i : ℚ) - p.cy_para 0) ^ 2 + ((j : ℚ) - p.cy_para 1) ^ 2 ≤ p.cy_para 2 ^ 2
          then 1 else 0
        else s.mask i j }
  { s1 with
    f_new := fun i j k => if inB p i j then f_eq s1 i j k else s.f_new i j k
    f_old := fun i j k => if inB p i j then f_eq s1 i j k else s.f_old i j k }

/-- The `collide_and_stream` kernel: on interior cells it writes the fused
BGK-collision/streaming update into `f_new`, pulling from the upstream
neighbour `(i - e[k].x, j - e[k].y)` of the old generation. -/
def collide_and_stream (p : LBMParams) (s : GridState) : GridState :=
  { s with
    f_new := fun i j k =>
      if interior p i j then
        (1 - inv_tau p) * s.f_old (i - (e k).1) (j - (e k).2) k
          + f_eq s (i - (e k).1) (j - (e k).2) k * inv_tau p
      else s.f_new i j k }

/-- The `update_macro_var` kernel: on interior cells it copies
`f_old ← f_new`, recomputes `rho` as the zeroth moment of `f_new` and `vel`
as the first moment divided by the just-written `rho`. -/
def update_macro_var (p : LBMParams) (s : GridState) : GridState :=
  { s with
    rho := fun i j =>
      if interior p i j then ∑ k : Fin 9, s.f_new i j k else s.rho i j
    vel := fun i j =>
      if interior p i j then
        ((∑ k : Fin 9, ((e k).1 : ℚ) * s.f_new i j k) / ∑ k : Fin 9, s.f_new i j k,
         (∑ k : Fin 9, ((e k).2 : ℚ) * s.f_new i j k) / ∑ k : Fin 9, s.f_new i j k)
      else s.vel i j
    f_old := fun i j k =>
      if interior p i j then s.f_new i j k else s.f_old i j k }

/-- One invocation of `apply_bc_core(outer, dr, ibc, jbc, inb, jnb)`:
the arguments of a single call site. -/
structure BCCall where
  outer : ℕ
  dr : Fin 4
  ibc : ℤ
  jbc : ℤ
  inb : ℤ
  jnb : ℤ
deriving DecidableEq

/-- The `apply_bc_core` function.  For an outer-boundary call (`outer == 1`)
it first writes the boundary velocity at `(ibc, jbc)` (the configured value
for Dirichlet, the neighbour's velocity for Neumann); it then copies
`rho[ibc, jbc] ← rho[inb, jnb]` and finally performs the non-equilibrium
extrapolation of every `f_old[ibc, jbc][k]`, where `f_eq(ibc, jbc, k)` reads
the just-written velocity and density at `(ibc, jbc)`. -/
def apply_bc_core (p : LBMParams) (s : GridState) (outer : ℕ) (dr : Fin 4)
    (ibc jbc inb jnb : ℤ) : GridState :=
  let v : ℚ × ℚ :=
    if outer = 1 then
      if p.bc_type dr = 0 then p.bc_value dr
      else if p.bc_type dr = 1 then s.vel inb jnb
      else s.vel ibc jbc
    else s.vel ibc jbc
  let s1 : GridState :=
    { s with
      vel := fun a b => if a = ibc ∧ b = jbc then v else s.vel a b
      rho := fun a b => if a = ibc ∧ b = jbc then s.rho inb jnb else s.rho a b }
  { s1 with
    f_old := fun a b k =>
      if a = ibc ∧ b = jbc then
        f_eq s1 ibc jbc k - f_eq s1 inb jnb k + s.f_old inb jnb k
      else s.f_old a b k }

/-- Run a list of `apply_bc_core` calls in order. -/
def runCalls (p : LBMParams) (s : GridState) (l : List BCCall) : GridState :=
  l.foldl (fun t c => apply_bc_core p t c.outer c.dr c.ibc c.jbc c.inb c.jnb) s

/-- `self.apply_bc_core(1, 0, 0, j, 1, j)` (left edge). -/
def leftCall (j : ℤ) : BCCall := ⟨1, 0, 0, j, 1, j⟩

/-- `self.apply_bc_core(1, 2, nx - 1, j, nx - 2, j)` (right edge). -/
def rightCall (p : LBMParams) (j : ℤ) : BCCall :=
  ⟨1, 2, (p.nx : ℤ) - 1, j, (p.nx : ℤ) - 2, j⟩

/-- `self.apply_bc_core(1, 1, i, ny - 1, i, ny - 2)` (top edge). -/
def topCall (p : LBMParams) (i : ℤ) : BCCall :=
  ⟨1, 1, i, (p.ny : ℤ) - 1, i, (p.ny : ℤ) - 2⟩

/-- `self.apply_bc_core(1, 3, i, 0, i, 1)` (bottom edge). -/
def botCall (i : ℤ) : BCCall := ⟨1, 3, i, 0, i, 1⟩

/-- The calls of the left/right edge loop, truncated to the first `m`
iterations: for each `t` a left call then a right call at `j = t`. -/
def lrCallsN (p : LBMParams) (m : ℕ) : List BCCall :=
  (List.range m).flatMap fun t => [leftCall (t : ℤ), rightCall p (t : ℤ)]

/-- The calls of the loop `for j in ti.ndrange(1, self.ny - 1)`.  The two
integer arguments of `ti.ndrange` are dimension *sizes* (ranges are written
as tuples), so this is the two-dimensional index set `[0,1) × [0, ny-1)`;
a struct-for over a multi-dimensional `ti.ndrange` with a single loop
variable binds that variable to the flattened linear index, so `j` takes the
values `0, 1, ..., ny - 2`. -/
def lrCalls (p : LBMParams) : List BCCall := lrCallsN p (p.ny - 1)

/-- The calls of the top/bottom edge loop, truncated to the first `m`
iterations: for each `i` a top call then a bottom call. -/
def tbCallsN (p : LBMParams) (m : ℕ) : List BCCall :=
  (List.range m).flatMap fun t => [topCall p (t : ℤ), botCall (t : ℤ)]

/-- The calls of the loop `for i in ti.ndrange(self.nx)`: `i` ranges over
`0, ..., nx - 1`. -/
def tbCalls (p : LBMParams) : List BCCall := tbCallsN p p.nx

/-- All allocated cells, in the row-major order of `ti.ndrange(nx, ny)`. -/
def gridCells (p : LBMParams) : List (ℤ × ℤ) :=
  (List.range p.nx).flatMap fun a =>
    (List.range p.ny).map fun b => (Int.ofNat a, Int.ofNat b)

/-- Overwrite the velocity at cell `(i, j)` with `(0, 0)`
(`self.vel[i, j][0] = 0.0; self.vel[i, j][1] = 0.0`). -/
def zeroVelAt (s : GridState) (i j : ℤ) : GridState :=
  { s with vel := fun a b => if a = i ∧ b = j then ((0 : ℚ), (0 : ℚ)) else s.vel a b }

/-- The neighbour chosen for a masked cell: per axis, `index + 1` on the
high side of the obstacle centre (`i >= cy_para[0]`, an int/float
comparison) and `index - 1` on the low side. -/
def obstacleNeighbor (p : LBMParams) (i j : ℤ) : ℤ × ℤ :=
  ((if p.cy_para 0 ≤ (i : ℚ) then i + 1 else i - 1),
   (if p.cy_para 1 ≤ (j : ℚ) then j + 1 else j - 1))

/-- The body of the obstacle loop at cell `(i, j)`: when the obstacle is
enabled and the cell is masked, zero its velocity and call
`apply_bc_core(0, 0, i, j, inb, jnb)` with the outward neighbour. -/
def obstacleCell (p : LBMParams) (s : GridState) (i j : ℤ) : GridState :=
  if p.cy = 1 ∧ s.mask i j = 1 then
    apply_bc_core p (zeroVelAt s i j) 0 0 i j
      (obstacleNeighbor p i j).1 (obstacleNeighbor p i j).2
  else s

/-- Run the obstacle treatment over a list of cells in order. -/
def obstaclePassAux (p : LBMParams) (l : List (ℤ × ℤ)) (s : GridState) : GridState :=
  l.foldl (fun t ab => obstacleCell p t ab.1 ab.2) s

/-- The obstacle loop `for i, j in ti.ndrange(self.nx, self.ny)`. -/
def obstaclePass (p : LBMParams) (s : GridState) : GridState :=
  obstaclePassAux p (gridCells p) s

/-- The `apply_bc` kernel: the left/right edge loop, then the top/bottom
edge loop, then the obstacle loop, in program order. -/
def apply_bc (p : LBMParams) (s : GridState) : GridState :=
  obstaclePass p (runCalls p (runCalls p s (lrCalls p)) (tbCalls p))

/-- One iteration of the time loop in `solve`:
`collide_and_stream`, `update_macro_var`, `apply_bc`. -/
def lbm_step (p : LBMParams) (s : GridState) : GridState :=
  apply_bc p (update_macro_var p (collide_and_stream p s))

/-- `Steps p s n t`: state `t` is reachable from `s` by running the
per-step pipeline `n` times. -/
inductive Steps (p : LBMParams) : GridState → ℕ → GridState → Prop
  | zero (s : GridState) : Steps p s 0 s
  | succ (s : GridState) (n : ℕ) (t : GridState) :
      Steps p s n t → Steps p s (n + 1) (lbm_step p t)

/-- The grid indices at which one call of `apply_bc` reads or writes a
field: each edge call touches its boundary cell and its neighbour cell, and
each masked cell touches itself and its chosen outward neighbour. -/
def bcAccesses (p : LBMParams) (s : GridState) : List (ℤ × ℤ) :=
  ((lrCalls p ++ tbCalls p).flatMap fun c => [(c.ibc, c.jbc), (c.inb, c.jnb)])
    ++ ((gridCells p).flatMap fun ab =>
      if p.cy = 1 ∧ s.mask ab.1 ab.2 = 1 then
        [(ab.1, ab.2), obstacleNeighbor p ab.1 ab.2]
      else [])

/-- A concrete parameter set (4×4 grid, no obstacle), used to instantiate
universally quantified results. -/
def pW : LBMParams :=
  { nx := 4, ny := 4, niu := 1, bc_type := fun _ => 0,
    bc_value := fun _ => (1/10, 0), cy := 0, cy_para := fun _ => 0 }

/-- A concrete grid state: uniform unit density and distributions, zero
velocity, no masked cells. -/
def sW : GridState :=
  { rho := fun _ _ => 1, vel := fun _ _ => (0, 0), mask := fun _ _ => 0,
    f_old := fun _ _ _ => 1, f_new := fun _ _ _ => 1 }

/-- A concrete parameter set with the obstacle enabled, centred at `(2, 2)`. -/
def pObs : LBMParams :=
  { nx := 5, ny := 5, niu := 1, bc_type := fun _ => 0,
    bc_value := fun _ => (1/10, 0), cy := 1, cy_para := ![2, 2, 1] }

/-- A state whose only masked cell is the interior cell `(2, 2)`. -/
def sObs : GridState :=
  { sW with mask := fun i j => if i = 2 ∧ j = 2 then 1 else 0 }

/-- A concrete parameter set with the obstacle enabled and centred at
`(2, 3)` on a 4×4 grid. -/
def pRing : LBMParams :=
  { nx := 4, ny := 4, niu := 1, bc_type := fun _ => 0,
    bc_value := fun _ => (1/10, 0), cy := 1, cy_para := ![2, 3, 1] }

/-- A state whose only masked cell is `(3, 2)` — a cell of the outermost
ring (`3 = nx - 1`) on the high side of the obstacle centre. -/
def sRing : GridState :=
  { sW with mask := fun i j => if i = 3 ∧ j = 2 then 1 else 0 }

/-! ### Basic lemmas about `apply_bc_core` and call lists -/

theorem core_mask (p : LBMParams) (s : GridState) (o : ℕ) (dr : Fin 4) (ibc jbc inb jnb : ℤ) :
    (apply_bc_core p s o dr ibc jbc inb jnb).mask = s.mask := rfl

theorem core_f_new (p : LBMParams) (s : GridState) (o : ℕ) (dr : Fin 4) (ibc jbc inb jnb : ℤ) :
    (apply_bc_core p s o dr ibc jbc inb jnb).f_new = s.f_new := rfl

theorem core_untouched (p : LBMParams) (s : GridState) (o : ℕ) (dr : Fin 4)
    (ibc jbc inb jnb i j : ℤ) (h : ¬(i = ibc ∧ j = jbc)) :
    (apply_bc_core p s o dr ibc jbc inb jnb).vel i j = s.vel i j ∧
    (apply_bc_core p s o dr ibc jbc inb jnb).rho i j = s.rho i j ∧
    ∀ k, (apply_bc_core p s o dr ibc jbc inb jnb).f_old i j k = s.f_old i j k := by
  refine ⟨?_, ?_, fun k => ?_⟩ <;> simp [apply_bc_core, h]

theorem core_vel_bc (p : LBMParams) (s : GridState) (dr : Fin 4) (ibc jbc inb jnb : ℤ) :
    (apply_bc_core p s 1 dr ibc jbc inb jnb).vel ibc jbc =
      (if p.bc_type dr = 0 then p.bc_value dr
       else if p.bc_type dr = 1 then s.vel inb jnb else s.vel ibc jbc) := by
  simp [apply_bc_core]

theorem core_rho_copy (p : LBMParams) (s : GridState) (o : ℕ) (dr : Fin 4)
    (ibc jbc inb jnb : ℤ) :
    (apply_bc_core p s o dr ibc jbc inb jnb).rho ibc jbc = s.rho inb jnb := by
  simp [apply_bc_core]

theorem runCalls_nil (p : LBMParams) (s : GridState) : runCalls p s [] = s := rfl

theorem runCalls_cons (p : LBMParams) (s : GridState) (c : BCCall) (l : List BCCall) :
    runCalls p s (c :: l) =
      runCalls p (apply_bc_core p s c.outer c.dr c.ibc c.jbc c.inb c.jnb) l := rfl

theorem runCalls_append (p : LBMParams) (s : GridState) (l1 l2 : List BCCall) :
    runCalls p s (l1 ++ l2) = runCalls p (runCalls p s l1) l2 := by
  simp [runCalls]

theorem runCalls_mask (p : LBMParams) :
    ∀ (l : List BCCall) (s : GridState), (runCalls p s l).mask = s.mask := by
  intro l
  induction l with
  | nil => intro s; rfl
  | cons c l ih => intro s; rw [runCalls_cons, ih]; rfl

theorem runCalls_f_new (p : LBMParams) :
    ∀ (l : List BCCall) (s : GridState), (runCalls p s l).f_new = s.f_new := by
  intro l
  induction l with
  | nil => intro s; rfl
  | cons c l ih => intro s; rw [runCalls_cons, ih]; rfl

theorem runCalls_untouched (p : LBMParams) (i j : ℤ) :
    ∀ (l : List BCCall), (∀ c ∈ l, ¬(i = c.ibc ∧ j = c.jbc)) → ∀ s : GridState,
      (runCalls p s l).vel i j = s.vel i j ∧
      (runCalls p s l).rho i j = s.rho i j ∧
      ∀ k, (runCalls p s l).f_old i j k = s.f_old i j k := by
  intro l
  induction l with
  | nil => exact fun _ s => ⟨rfl, rfl, fun _ => rfl⟩
  | cons c l ih =>
    intro h s
    have hc := core_untouched p s c.outer c.dr c.ibc c.jbc c.inb c.jnb i j
      (h c (List.mem_cons_self c l))
    have hrest := ih (fun d hd => h d (List.mem_cons_of_mem c hd))
      (apply_bc_core p s c.outer c.dr c.ibc c.jbc c.inb c.jnb)
    rw [runCalls_cons]
    exact ⟨hrest.1.trans hc.1, hrest.2.1.trans hc.2.1,
      fun k => (hrest.2.2 k).trans (hc.2.2 k)⟩

theorem mem_lrCallsN (p : LBMParams) (m : ℕ) (c : BCCall) :
    c ∈ lrCallsN p m ↔
      ∃ t : ℕ, t < m ∧ (c = leftCall (t : ℤ) ∨ c = rightCall p (t : ℤ)) := by
  simp [lrCallsN, List.mem_flatMap, List.mem_range]

theorem mem_tbCallsN (p : LBMParams) (m : ℕ) (c : BCCall) :
    c ∈ tbCallsN p m ↔
      ∃ t : ℕ, t < m ∧ (c = topCall p (t : ℤ) ∨ c = botCall (t : ℤ)) := by
  simp [tbCallsN, List.mem_flatMap, List.mem_range]

theorem lrCallsN_succ (p : LBMParams) (m : ℕ) :
    lrCallsN p (m + 1) = lrCallsN p m ++ [leftCall (m : ℤ), rightCall p (m : ℤ)] := by
  simp [lrCallsN, List.range_succ]

theorem tbCallsN_succ (p : LBMParams) (m : ℕ) :
    tbCallsN p (m + 1) = tbCallsN p m ++ [topCall p (m : ℤ), botCall (m : ℤ)] := by
  simp [tbCallsN, List.range_succ]

theorem mem_gridCells (p : LBMParams) (i j : ℤ) :
    (i, j) ∈ gridCells p ↔ inB p i j := by
  constructor
  · intro h
    obtain ⟨a, ha, hmem⟩ := List.mem_flatMap.mp h
    obtain ⟨b, hb, heq⟩ := List.mem_map.mp hmem
    rw [List.mem_range] at ha hb
    injection heq with h1 h2
    subst h1
    subst h2
    simp only [Int.ofNat_eq_coe]
    exact ⟨by omega, by omega, by omega, by omega⟩
  · intro hin
    obtain ⟨h1, h2, h3, h4⟩ := hin
    refine List.mem_flatMap.mpr ⟨i.toNat, List.mem_range.mpr (by omega),
      List.mem_map.mpr ⟨j.toNat, List.mem_range.mpr (by omega), ?_⟩⟩
    simp only [Prod.mk.injEq, Int.ofNat_eq_coe]
    constructor <;> omega

/-! ### Basic lemmas about the obstacle loop -/

theorem obstacleCell_mask (p : LBMParams) (s : GridState) (i j : ℤ) :
    (obstacleCell p s i j).mask = s.mask := by
  unfold obstacleCell
  split <;> rfl

theorem obstacleCell_f_new (p : LBMParams) (s : GridState) (i j : ℤ) :
    (obstacleCell p s i j).f_new = s.f_new := by
  unfold obstacleCell
  split <;> rfl

theorem obstacleCell_of_not (p : LBMParams) (s : GridState) (i j : ℤ)
    (h : ¬(p.cy = 1 ∧ s.mask i j = 1)) : obstacleCell p s i j = s := by
  unfold obstacleCell
  exact if_neg h

theorem obstacleCell_untouched (p : LBMParams) (s : GridState) (a b i j : ℤ)
    (h : ¬(i = a ∧ j = b)) :
    (obstacleCell p s a b).vel i j = s.vel i j ∧
    (obstacleCell p s a b).rho i j = s.rho i j ∧
    ∀ k, (obstacleCell p s a b).f_old i j k = s.f_old i j k := by
  unfold obstacleCell
  split
  · have hc := core_untouched p (zeroVelAt s a b) 0 0 a b
      (obstacleNeighbor p a b).1 (obstacleNeighbor p a b).2 i j h
    refine ⟨hc.1.trans ?_, hc.2.1, hc.2.2⟩
    simp [zeroVelAt, h]
  · exact ⟨rfl, rfl, fun _ => rfl⟩

theorem obstacleCell_vel_self (p : LBMParams) (s : GridState) (i j : ℤ)
    (h : p.cy = 1 ∧ s.mask i j = 1) :
    (obstacleCell p s i j).vel i j = (0, 0) := by
  unfold obstacleCell
  rw [if_pos h]
  simp [apply_bc_core, zeroVelAt]

theorem obstacleCell_vel_keep_zero (p : LBMParams) (s : GridState) (a b i j : ℤ)
    (h : s.vel i j = (0, 0)) : (obstacleCell p s a b).vel i j = (0, 0) := by
  by_cases hab : i = a ∧ j = b
  · obtain ⟨h1, h2⟩ := hab
    subst h1; subst h2
    by_cases hc : p.cy = 1 ∧ s.mask i j = 1
    · exact obstacleCell_vel_self p s i j hc
    · rw [obstacleCell_of_not p s i j hc]; exact h
  · exact (obstacleCell_untouched p s a b i j hab).1.trans h

theorem obsAux_cons (p : LBMParams) (s : GridState) (ab : ℤ × ℤ) (l : List (ℤ × ℤ)) :
    obstaclePassAux p (ab :: l) s = obstaclePassAux p l (obstacleCell p s ab.1 ab.2) := rfl

theorem obsAux_mask (p : LBMParams) :
    ∀ (l : List (ℤ × ℤ)) (s : GridState), (obstaclePassAux p l s).mask = s.mask := by
  intro l
  induction l with
  | nil => intro s; rfl
  | cons ab l ih =>
    intro s
    rw [obsAux_cons, ih, obstacleCell_mask]

theorem obsAux_f_new (p : LBMParams) :
    ∀ (l : List (ℤ × ℤ)) (s : GridState), (obstaclePassAux p l s).f_new = s.f_new := by
  intro l
  induction l with
  | nil => intro s; rfl
  | cons ab l ih =>
    intro s
    rw [obsAux_cons, ih, obstacleCell_f_new]

theorem obsAux_untouched (p : LBMParams) (i j : ℤ) :
    ∀ (l : List (ℤ × ℤ)) (s : GridState), ¬(p.cy = 1 ∧ s.mask i j = 1) →
      (obstaclePassAux p l s).vel i j = s.vel i j ∧
      (obstaclePassAux p l s).rho i j = s.rho i j ∧
      ∀ k, (obstaclePassAux p l s).f_old i j k = s.f_old i j k := by
  intro l
  induction l with
  | nil => exact fun s _ => ⟨rfl, rfl, fun _ => rfl⟩
  | cons ab l ih =>
    obtain ⟨a, b⟩ := ab
    intro s h
    have hnext : ¬(p.cy = 1 ∧ (obstacleCell p s a b).mask i j = 1) := by
      rw [obstacleCell_mask]; exact h
    have hrest := ih (obstacleCell p s a b) hnext
    rw [obsAux_cons]
    by_cases hab : i = a ∧ j = b
    · have heq : obstacleCell p s a b = s := by
        refine obstacleCell_of_not p s a b ?_
        rw [← hab.1, ← hab.2]
        exact h
      rw [heq] at hrest ⊢
      exact hrest
    · have hc := obstacleCell_untouched p s a b i j hab
      exact ⟨hrest.1.trans hc.1, hrest.2.1.trans hc.2.1,
        fun k => (hrest.2.2 k).trans (hc.2.2 k)⟩

theorem obsAux_vel_zero (p : LBMParams) (i j : ℤ) (hcy : p.cy = 1) :
    ∀ (l : List (ℤ × ℤ)) (s : GridState), s.mask i j = 1 →
      ((i, j) ∈ l ∨ s.vel i j = (0, 0)) →
      (obstaclePassAux p l s).vel i j = (0, 0) := by
  intro l
  induction l with
  | nil =>
    intro s _ h
    rcases h with h | h
    · exact absurd h (List.not_mem_nil _)
    · exact h
  | cons ab l ih =>
    obtain ⟨a, b⟩ := ab
    intro s hm h
    have hmask2 : (obstacleCell p s a b).mask i j = 1 := by
      rw [obstacleCell_mask]; exact hm
    rw [obsAux_cons]
    rcases h with hmem | hvel
    · rcases List.mem_cons.mp hmem with heq | hmem2
      · obtain ⟨h1, h2⟩ := Prod.mk.injEq _ _ _ _ |>.mp heq
        refine ih _ hmask2 (Or.inr ?_)
        rw [← h1, ← h2]
        exact obstacleCell_vel_self p s i j ⟨hcy, hm⟩
      · exact ih _ hmask2 (Or.inl hmem2)
    · exact ih _ hmask2 (Or.inr (obstacleCell_vel_keep_zero p s a b i j hvel))

/-! ### Which cells the edge loops write, and the velocities they leave -/

theorem runCalls_pair (p : LBMParams) (s : GridState) (c1 c2 : BCCall) :
    runCalls p s [c1, c2] =
      apply_bc_core p (apply_bc_core p s c1.outer c1.dr c1.ibc c1.jbc c1.inb c1.jnb)
        c2.outer c2.dr c2.ibc c2.jbc c2.inb c2.jnb := rfl

theorem lrCallsN_target (p : LBMParams) (m : ℕ) (c : BCCall) (hc : c ∈ lrCallsN p m) :
    (c.ibc = 0 ∨ c.ibc = (p.nx : ℤ) - 1) ∧ 0 ≤ c.jbc ∧ c.jbc < (m : ℤ) := by
  obtain ⟨t, ht, h⟩ := (mem_lrCallsN p m c).mp hc
  rcases h with h | h <;> subst h
  · exact ⟨Or.inl rfl, by show (0 : ℤ) ≤ (t : ℤ); omega, by show (t : ℤ) < (m : ℤ); omega⟩
  · exact ⟨Or.inr rfl, by show (0 : ℤ) ≤ (t : ℤ); omega, by show (t : ℤ) < (m : ℤ); omega⟩

theorem tbCallsN_target (p : LBMParams) (m : ℕ) (c : BCCall) (hc : c ∈ tbCallsN p m) :
    (c.jbc = (p.ny : ℤ) - 1 ∨ c.jbc = 0) ∧ 0 ≤ c.ibc ∧ c.ibc < (m : ℤ) := by
  obtain ⟨t, ht, h⟩ := (mem_tbCallsN p m c).mp hc
  rcases h with h | h <;> subst h
  · exact ⟨Or.inl rfl, by show (0 : ℤ) ≤ (t : ℤ); omega, by show (t : ℤ) < (m : ℤ); omega⟩
  · exact ⟨Or.inr rfl, by show (0 : ℤ) ≤ (t : ℤ); omega, by show (t : ℤ) < (m : ℤ); omega⟩

theorem lrCallsN_untouched (p : LBMParams) (m : ℕ) (i j : ℤ)
    (hij : ¬((i = 0 ∨ i = (p.nx : ℤ) - 1) ∧ 0 ≤ j ∧ j < (m : ℤ))) (s : GridState) :
    (runCalls p s (lrCallsN p m)).vel i j = s.vel i j ∧
    (runCalls p s (lrCallsN p m)).rho i j = s.rho i j ∧
    ∀ k, (runCalls p s (lrCallsN p m)).f_old i j k = s.f_old i j k := by
  refine runCalls_untouched p i j (lrCallsN p m) ?_ s
  intro c hc hand
  have ht := lrCallsN_target p m c hc
  refine hij ⟨?_, ?_, ?_⟩
  · rcases ht.1 with h1 | h1 <;> rw [hand.1, h1] <;> [exact Or.inl rfl; exact Or.inr rfl]
  · rw [hand.2]; exact ht.2.1
  · rw [hand.2]; exact ht.2.2

theorem tbCallsN_untouched (p : LBMParams) (m : ℕ) (i j : ℤ)
    (hij : ¬((j = (p.ny : ℤ) - 1 ∨ j = 0) ∧ 0 ≤ i ∧ i < (m : ℤ))) (s : GridState) :
    (runCalls p s (tbCallsN p m)).vel i j = s.vel i j ∧
    (runCalls p s (tbCallsN p m)).rho i j = s.rho i j ∧
    ∀ k, (runCalls p s (tbCallsN p m)).f_old i j k = s.f_old i j k := by
  refine runCalls_untouched p i j (tbCallsN p m) ?_ s
  intro c hc hand
  have ht := tbCallsN_target p m c hc
  refine hij ⟨?_, ?_, ?_⟩
  · rcases ht.1 with h1 | h1 <;> rw [hand.2, h1] <;> [exact Or.inl rfl; exact Or.inr rfl]
  · rw [hand.1]; exact ht.2.1
  · rw [hand.1]; exact ht.2.2

theorem lr_vel_left (p : LBMParams) (hnx : 3 ≤ p.nx) :
    ∀ (m : ℕ) (s : GridState) (j : ℤ), 0 ≤ j → j < (m : ℤ) →
      (runCalls p s (lrCallsN p m)).vel 0 j =
        (if p.bc_type 0 = 0 then p.bc_value 0
         else if p.bc_type 0 = 1 then s.vel 1 j else s.vel 0 j) := by
  intro m
  induction m with
  | zero => intro s j h1 h2; exact absurd h2 (by omega)
  | succ m ih =>
    intro s j h1 h2
    rw [lrCallsN_succ, runCalls_append, runCalls_pair]
    simp only [leftCall, rightCall]
    by_cases hj : j = (m : ℤ)
    · subst hj
      have hR := core_untouched p
        (apply_bc_core p (runCalls p s (lrCallsN p m)) 1 0 0 (m : ℤ) 1 (m : ℤ))
        1 2 ((p.nx : ℤ) - 1) (m : ℤ) ((p.nx : ℤ) - 2) (m : ℤ) 0 (m : ℤ)
        (by rintro ⟨hca, hcb⟩; omega)
      rw [hR.1, core_vel_bc]
      have hu1 := lrCallsN_untouched p m 1 (m : ℤ)
        (by rintro ⟨hca | hca, hcb, hcc⟩ <;> omega) s
      have hu0 := lrCallsN_untouched p m 0 (m : ℤ)
        (by rintro ⟨hca, hcb, hcc⟩; omega) s
      rw [hu1.1, hu0.1]
    · have hR := core_untouched p
        (apply_bc_core p (runCalls p s (lrCallsN p m)) 1 0 0 (m : ℤ) 1 (m : ℤ))
        1 2 ((p.nx : ℤ) - 1) (m : ℤ) ((p.nx : ℤ) - 2) (m : ℤ) 0 j
        (by rintro ⟨hca, hcb⟩; omega)
      have hL := core_untouched p (runCalls p s (lrCallsN p m))
        1 0 0 (m : ℤ) 1 (m : ℤ) 0 j (by rintro ⟨hca, hcb⟩; omega)
      rw [hR.1, hL.1]
      exact ih s j h1 (by omega)

theorem lr_vel_right (p : LBMParams) (hnx : 3 ≤ p.nx) :
    ∀ (m : ℕ) (s : GridState) (j : ℤ), 0 ≤ j → j < (m : ℤ) →
      (runCalls p s (lrCallsN p m)).vel ((p.nx : ℤ) - 1) j =
        (if p.bc_type 2 = 0 then p.bc_value 2
         else if p.bc_type 2 = 1 then s.vel ((p.nx : ℤ) - 2) j
         else s.vel ((p.nx : ℤ) - 1) j) := by
  intro m
  induction m with
  | zero => intro s j h1 h2; exact absurd h2 (by omega)
  | succ m ih =>
    intro s j h1 h2
    rw [lrCallsN_succ, runCalls_append, runCalls_pair]
    simp only [leftCall, rightCall]
    by_cases hj : j = (m : ℤ)
    · subst hj
      rw [core_vel_bc]
      have hL2 := core_untouched p (runCalls p s (lrCallsN p m))
        1 0 0 (m : ℤ) 1 (m : ℤ) ((p.nx : ℤ) - 2) (m : ℤ)
        (by rintro ⟨hca, hcb⟩; omega)
      have hL1 := core_untouched p (runCalls p s (lrCallsN p m))
        1 0 0 (m : ℤ) 1 (m : ℤ) ((p.nx : ℤ) - 1) (m : ℤ)
        (by rintro ⟨hca, hcb⟩; omega)
      have hu2 := lrCallsN_untouched p m ((p.nx : ℤ) - 2) (m : ℤ)
        (by rintro ⟨hca | hca, hcb, hcc⟩ <;> omega) s
      have hu1 := lrCallsN_untouched p m ((p.nx : ℤ) - 1) (m : ℤ)
        (by rintro ⟨hca, hcb, hcc⟩; omega) s
      rw [hL2.1, hL1.1, hu2.1, hu1.1]
    · have hR := core_untouched p
        (apply_bc_core p (runCalls p s (lrCallsN p m)) 1 0 0 (m : ℤ) 1 (m : ℤ))
        1 2 ((p.nx : ℤ) - 1) (m : ℤ) ((p.nx : ℤ) - 2) (m : ℤ) ((p.nx : ℤ) - 1) j
        (by rintro ⟨hca, hcb⟩; omega)
      have hL := core_untouched p (runCalls p s (lrCallsN p m))
        1 0 0 (m : ℤ) 1 (m : ℤ) ((p.nx : ℤ) - 1) j (by rintro ⟨hca, hcb⟩; omega)
      rw [hR.1, hL.1]
      exact ih s j h1 (by omega)

theorem tb_vel_top (p : LBMParams) (hny : 3 ≤ p.ny) :
    ∀ (m : ℕ) (s : GridState) (i : ℤ), 0 ≤ i → i < (m : ℤ) →
      (runCalls p s (tbCallsN p m)).vel i ((p.ny : ℤ) - 1) =
        (if p.bc_type 1 = 0 then p.bc_value 1
         else if p.bc_type 1 = 1 then s.vel i ((p.ny : ℤ) - 2)
         else s.vel i ((p.ny : ℤ) - 1)) := by
  intro m
  induction m with
  | zero => intro s i h1 h2; exact absurd h2 (by omega)
  | succ m ih =>
    intro s i h1 h2
    rw [tbCallsN_succ, runCalls_append, runCalls_pair]
    simp only [topCall, botCall]
    by_cases hi : i = (m : ℤ)
    · subst hi
      have hB := core_untouched p
        (apply_bc_core p (runCalls p s (tbCallsN p m)) 1 1 (m : ℤ) ((p.ny : ℤ) - 1)
          (m : ℤ) ((p.ny : ℤ) - 2))
        1 3 (m : ℤ) 0 (m : ℤ) 1 (m : ℤ) ((p.ny : ℤ) - 1)
        (by rintro ⟨hca, hcb⟩; omega)
      rw [hB.1, core_vel_bc]
      have hu2 := tbCallsN_untouched p m (m : ℤ) ((p.ny : ℤ) - 2)
        (by rintro ⟨hca | hca, hcb, hcc⟩ <;> omega) s
      have hu1 := tbCallsN_untouched p m (m : ℤ) ((p.ny : ℤ) - 1)
        (by rintro ⟨hca, hcb, hcc⟩; omega) s
      rw [hu2.1, hu1.1]
    · have hB := core_untouched p
        (apply_bc_core p (runCalls p s (tbCallsN p m)) 1 1 (m : ℤ) ((p.ny : ℤ) - 1)
          (m : ℤ) ((p.ny : ℤ) - 2))
        1 3 (m : ℤ) 0 (m : ℤ) 1 i ((p.ny : ℤ) - 1)
        (by rintro ⟨hca, hcb⟩; omega)
      have hT := core_untouched p (runCalls p s (tbCallsN p m))
        1 1 (m : ℤ) ((p.ny : ℤ) - 1) (m : ℤ) ((p.ny : ℤ) - 2) i ((p.ny : ℤ) - 1)
        (by rintro ⟨hca, hcb⟩; omega)
      rw [hB.1, hT.1]
      exact ih s i h1 (by omega)

theorem tb_vel_bot (p : LBMParams) (hny : 3 ≤ p.ny) :
    ∀ (m : ℕ) (s : GridState) (i : ℤ), 0 ≤ i → i < (m : ℤ) →
      (runCalls p s (tbCallsN p m)).vel i 0 =
        (if p.bc_type 3 = 0 then p.bc_value 3
         else if p.bc_type 3 = 1 then s.vel i 1 else s.vel i 0) := by
  intro m
  induction m with
  | zero => intro s i h1 h2; exact absurd h2 (by omega)
  | succ m ih =>
    intro s i h1 h2
    rw [tbCallsN_succ, runCalls_append, runCalls_pair]
    simp only [topCall, botCall]
    by_cases hi : i = (m : ℤ)
    · subst hi
      rw [core_vel_bc]
      have hT1 := core_untouched p (runCalls p s (tbCallsN p m))
        1 1 (m : ℤ) ((p.ny : ℤ) - 1) (m : ℤ) ((p.ny : ℤ) - 2) (m : ℤ) 1
        (by rintro ⟨hca, hcb⟩; omega)
      have hT0 := core_untouched p (runCalls p s (tbCallsN p m))
        1 1 (m : ℤ) ((p.ny : ℤ) - 1) (m : ℤ) ((p.ny : ℤ) - 2) (m : ℤ) 0
        (by rintro ⟨hca, hcb⟩; omega)
      have hu1 := tbCallsN_untouched p m (m : ℤ) 1
        (by rintro ⟨hca | hca, hcb, hcc⟩ <;> omega) s
      have hu0 := tbCallsN_untouched p m (m : ℤ) 0
        (by rintro ⟨hca, hcb, hcc⟩; omega) s
      rw [hT1.1, hT0.1, hu1.1, hu0.1]
    · have hB := core_untouched p
        (apply_bc_core p (runCalls p s (tbCallsN p m)) 1 1 (m : ℤ) ((p.ny : ℤ) - 1)
          (m : ℤ) ((p.ny : ℤ) - 2))
        1 3 (m : ℤ) 0 (m : ℤ) 1 i 0
        (by rintro ⟨hca, hcb⟩; omega)
      have hT := core_untouched p (runCalls p s (tbCallsN p m))
        1 1 (m : ℤ) ((p.ny : ℤ) - 1) (m : ℤ) ((p.ny : ℤ) - 2) i 0
        (by rintro ⟨hca, hcb⟩; omega)
      rw [hB.1, hT.1]
      exact ih s i h1 (by omega)

/-! ### What `apply_bc` as a whole does to velocities -/

theorem apply_bc_eq (p : LBMParams) (s : GridState) :
    apply_bc p s = obstaclePassAux p (gridCells p)
      (runCalls p (runCalls p s (lrCallsN p (p.ny - 1))) (tbCallsN p p.nx)) := rfl

theorem apply_bc_mask (p : LBMParams) (s : GridState) :
    (apply_bc p s).mask = s.mask := by
  rw [apply_bc_eq, obsAux_mask, runCalls_mask, runCalls_mask]

theorem apply_bc_f_new (p : LBMParams) (s : GridState) :
    (apply_bc p s).f_new = s.f_new := by
  rw [apply_bc_eq, obsAux_f_new, runCalls_f_new, runCalls_f_new]

theorem apply_bc_vel_masked (p : LBMParams) (s : GridState) (i j : ℤ)
    (hcy : p.cy = 1) (hm : s.mask i j = 1) (hin : inB p i j) :
    (apply_bc p s).vel i j = (0, 0) := by
  rw [apply_bc_eq]
  refine obsAux_vel_zero p i j hcy (gridCells p) _ ?_ (Or.inl ?_)
  · rw [runCalls_mask, runCalls_mask]; exact hm
  · exact (mem_gridCells p i j).mpr hin

theorem apply_bc_vel_left (p : LBMParams) (s : GridState) (hnx : 3 ≤ p.nx)
    (hny : 3 ≤ p.ny) (j : ℤ) (hj1 : 1 ≤ j) (hj2 : j ≤ (p.ny : ℤ) - 2)
    (hm0 : ¬(p.cy = 1 ∧ s.mask 0 j = 1)) (hm1 : ¬(p.cy = 1 ∧ s.mask 1 j = 1)) :
    (p.bc_type 0 = 0 → (apply_bc p s).vel 0 j = p.bc_value 0) ∧
    (p.bc_type 0 = 1 → (apply_bc p s).vel 0 j = (apply_bc p s).vel 1 j) := by
  have hmask2 : (runCalls p (runCalls p s (lrCallsN p (p.ny - 1))) (tbCallsN p p.nx)).mask
      = s.mask := by
    rw [runCalls_mask, runCalls_mask]
  have hob0 := obsAux_untouched p 0 j (gridCells p)
    (runCalls p (runCalls p s (lrCallsN p (p.ny - 1))) (tbCallsN p p.nx))
    (by rw [hmask2]; exact hm0)
  have hob1 := obsAux_untouched p 1 j (gridCells p)
    (runCalls p (runCalls p s (lrCallsN p (p.ny - 1))) (tbCallsN p p.nx))
    (by rw [hmask2]; exact hm1)
  have htb0 := tbCallsN_untouched p p.nx 0 j
    (by rintro ⟨hca | hca, hcb, hcc⟩ <;> omega) (runCalls p s (lrCallsN p (p.ny - 1)))
  have htb1 := tbCallsN_untouched p p.nx 1 j
    (by rintro ⟨hca | hca, hcb, hcc⟩ <;> omega) (runCalls p s (lrCallsN p (p.ny - 1)))
  have hlr0 := lr_vel_left p hnx (p.ny - 1) s j (by omega) (by omega)
  have hlr1 := lrCallsN_untouched p (p.ny - 1) 1 j
    (by rintro ⟨hca | hca, hcb, hcc⟩ <;> omega) s
  constructor
  · intro hd
    rw [apply_bc_eq, hob0.1, htb0.1, hlr0]
    simp [hd]
  · intro hn
    rw [apply_bc_eq, hob0.1, htb0.1, hlr0, hob1.1, htb1.1, hlr1.1]
    simp [hn]

theorem apply_bc_vel_right (p : LBMParams) (s : GridState) (hnx : 3 ≤ p.nx)
    (hny : 3 ≤ p.ny) (j : ℤ) (hj1 : 1 ≤ j) (hj2 : j ≤ (p.ny : ℤ) - 2)
    (hm0 : ¬(p.cy = 1 ∧ s.mask ((p.nx : ℤ) - 1) j = 1))
    (hm1 : ¬(p.cy = 1 ∧ s.mask ((p.nx : ℤ) - 2) j = 1)) :
    (p.bc_type 2 = 0 → (apply_bc p s).vel ((p.nx : ℤ) - 1) j = p.bc_value 2) ∧
    (p.bc_type 2 = 1 →
      (apply_bc p s).vel ((p.nx : ℤ) - 1) j = (apply_bc p s).vel ((p.nx : ℤ) - 2) j) := by
  have hmask2 : (runCalls p (runCalls p s (lrCallsN p (p.ny - 1))) (tbCallsN p p.nx)).mask
      = s.mask := by
    rw [runCalls_mask, runCalls_mask]
  have hob0 := obsAux_untouched p ((p.nx : ℤ) - 1) j (gridCells p)
    (runCalls p (runCalls p s (lrCallsN p (p.ny - 1))) (tbCallsN p p.nx))
    (by rw [hmask2]; exact hm0)
  have hob1 := obsAux_untouched p ((p.nx : ℤ) - 2) j (gridCells p)
    (runCalls p (runCalls p s (lrCallsN p (p.ny - 1))) (tbCallsN p p.nx))
    (by rw [hmask2]; exact hm1)
  have htb0 := tbCallsN_untouched p p.nx ((p.nx : ℤ) - 1) j
    (by rintro ⟨hca | hca, hcb, hcc⟩ <;> omega) (runCalls p s (lrCallsN p (p.ny - 1)))
  have htb1 := tbCallsN_untouched p p.nx ((p.nx : ℤ) - 2) j
    (by rintro ⟨hca | hca, hcb, hcc⟩ <;> omega) (runCalls p s (lrCallsN p (p.ny - 1)))
  have hlr0 := lr_vel_right p hnx (p.ny - 1) s j (by omega) (by omega)
  have hlr1 := lrCallsN_untouched p (p.ny - 1) ((p.nx : ℤ) - 2) j
    (by rintro ⟨hca | hca, hcb, hcc⟩ <;> omega) s
  constructor
  · intro hd
    rw [apply_bc_eq, hob0.1, htb0.1, hlr0]
    simp [hd]
  · intro hn
    rw [apply_bc_eq, hob0.1, htb0.1, hlr0, hob1.1, htb1.1, hlr1.1]
    simp [hn]

theorem apply_bc_vel_top (p : LBMParams) (s : GridState) (hnx : 3 ≤ p.nx)
    (hny : 3 ≤ p.ny) (i : ℤ) (hi1 : 0 ≤ i) (hi2 : i ≤ (p.nx : ℤ) - 1)
    (hm0 : ¬(p.cy = 1 ∧ s.mask i ((p.ny : ℤ) - 1) = 1))
    (hm1 : ¬(p.cy = 1 ∧ s.mask i ((p.ny : ℤ) - 2) = 1)) :
    (p.bc_type 1 = 0 → (apply_bc p s).vel i ((p.ny : ℤ) - 1) = p.bc_value 1) ∧
    (p.bc_type 1 = 1 →
      (apply_bc p s).vel i ((p.ny : ℤ) - 1) = (apply_bc p s).vel i ((p.ny : ℤ) - 2)) := by
  have hmask2 : (runCalls p (runCalls p s (lrCallsN p (p.ny - 1))) (tbCallsN p p.nx)).mask
      = s.mask := by
    rw [runCalls_mask, runCalls_mask]
  have hob0 := obsAux_untouched p i ((p.ny : ℤ) - 1) (gridCells p)
    (runCalls p (runCalls p s (lrCallsN p (p.ny - 1))) (tbCallsN p p.nx))
    (by rw [hmask2]; exact hm0)
  have hob1 := obsAux_untouched p i ((p.ny : ℤ) - 2) (gridCells p)
    (runCalls p (runCalls p s (lrCallsN p (p.ny - 1))) (tbCallsN p p.nx))
    (by rw [hmask2]; exact hm1)
  have htb0 := tb_vel_top p hny p.nx (runCalls p s (lrCallsN p (p.ny - 1))) i
    (by omega) (by omega)
  have htb1 := tbCallsN_untouched p p.nx i ((p.ny : ℤ) - 2)
    (by rintro ⟨hca | hca, hcb, hcc⟩ <;> omega) (runCalls p s (lrCallsN p (p.ny - 1)))
  constructor
  · intro hd
    rw [apply_bc_eq, hob0.1, htb0]
    simp [hd]
  · intro hn
    rw [apply_bc_eq, hob0.1, htb0, hob1.1, htb1.1]
    simp [hn]

theorem apply_bc_vel_bot (p : LBMParams) (s : GridState) (hnx : 3 ≤ p.nx)
    (hny : 3 ≤ p.ny) (i : ℤ) (hi1 : 0 ≤ i) (hi2 : i ≤ (p.nx : ℤ) - 1)
    (hm0 : ¬(p.cy = 1 ∧ s.mask i 0 = 1)) (hm1 : ¬(p.cy = 1 ∧ s.mask i 1 = 1)) :
    (p.bc_type 3 = 0 → (apply_bc p s).vel i 0 = p.bc_value 3) ∧
    (p.bc_type 3 = 1 → (apply_bc p s).vel i 0 = (apply_bc p s).vel i 1) := by
  have hmask2 : (runCalls p (runCalls p s (lrCallsN p (p.ny - 1))) (tbCallsN p p.nx)).mask
      = s.mask := by
    rw [runCalls_mask, runCalls_mask]
  have hob0 := obsAux_untouched p i 0 (gridCells p)
    (runCalls p (runCalls p s (lrCallsN p (p.ny - 1))) (tbCallsN p p.nx))
    (by rw [hmask2]; exact hm0)
  have hob1 := obsAux_untouched p i 1 (gridCells p)
    (runCalls p (runCalls p s (lrCallsN p (p.ny - 1))) (tbCallsN p p.nx))
    (by rw [hmask2]; exact hm1)
  have htb0 := tb_vel_bot p hny p.nx (runCalls p s (lrCallsN p (p.ny - 1))) i
    (by omega) (by omega)
  have htb1 := tbCallsN_untouched p p.nx i 1
    (by rintro ⟨hca | hca, hcb, hcc⟩ <;> omega) (runCalls p s (lrCallsN p (p.ny - 1)))
  constructor
  · intro hd
    rw [apply_bc_eq, hob0.1, htb0]
    simp [hd]
  · intro hn
    rw [apply_bc_eq, hob0.1, htb0, hob1.1, htb1.1]
    simp [hn]

/-! ### Auxiliary congruence for `f_eq` -/

theorem f_eq_congr (s t : GridState) (i j : ℤ) (hv : s.vel i j = t.vel i j)
    (hr : s.rho i j = t.rho i j) (k : Fin 9) : f_eq s i j k = f_eq t i j k := by
  unfold f_eq
  rw [hv, hr]

/-! ### The claims -/

/-- Claim C1: on every interior cell `(i,j)` and direction `k`,
`collide_and_stream` writes
`f_new[i,j][k] = (1 - 1/tau)·f_old[up][k] + (1/tau)·f_eq(up)` where `up` is
the upstream cell `(i - e_k.x, j - e_k.y)`; it leaves `f_old`, `rho`, `vel`
and `mask` unchanged (it reads the old generation and writes only the new
one), and it never writes `f_new` outside the interior, in particular not on
the outermost ring. -/
theorem spec_C1 (p : LBMParams) (s : GridState) (i j : ℤ)
    (h1 : 1 ≤ i) (h2 : i ≤ (p.nx : ℤ) - 2) (h3 : 1 ≤ j) (h4 : j ≤ (p.ny : ℤ) - 2) :
    (∀ k, (collide_and_stream p s).f_new i j k =
        (1 - inv_tau p) * s.f_old (i - (e k).1) (j - (e k).2) k
          + inv_tau p * f_eq s (i - (e k).1) (j - (e k).2) k) ∧
    (collide_and_stream p s).f_old = s.f_old ∧
    (collide_and_stream p s).rho = s.rho ∧
    (collide_and_stream p s).vel = s.vel ∧
    (collide_and_stream p s).mask = s.mask ∧
    (∀ a b, ¬ interior p a b →
      ∀ k, (collide_and_stream p s).f_new a b k = s.f_new a b k) := by
  have hin : interior p i j := ⟨h1, by omega, h3, by omega⟩
  refine ⟨fun k => ?_, rfl, rfl, rfl, rfl, fun a b hab k => ?_⟩
  · simp only [collide_and_stream]
    rw [if_pos hin]
    ring
  · simp only [collide_and_stream]
    rw [if_neg hab]

theorem spec_C1_w :
    ((1 : ℤ) ≤ 1 ∧ (1 : ℤ) ≤ (pW.nx : ℤ) - 2 ∧ (1 : ℤ) ≤ (pW.ny : ℤ) - 2) ∧
    ∀ k, (collide_and_stream pW sW).f_new 1 1 k =
      (1 - inv_tau pW) * sW.f_old (1 - (e k).1) (1 - (e k).2) k
        + inv_tau pW * f_eq sW (1 - (e k).1) (1 - (e k).2) k :=
  ⟨⟨le_refl 1, by decide, by decide⟩,
   (spec_C1 pW sW 1 1 (by decide) (by decide) (by decide) (by decide)).1⟩

/-- Claim C2: on every interior cell, `update_macro_var` copies
`f_old ← f_new`, sets `rho` to the sum of `f_new` over the nine directions
and `vel` to the first moments divided by the just-written `rho` — the
division appears with no guard, i.e. the same formula holds with no
hypothesis on the value of `rho`; `f_new` and `mask` are unchanged, and
cells outside the interior (the outermost ring) are left untouched. -/
theorem spec_C2 (p : LBMParams) (s : GridState) (i j : ℤ)
    (h1 : 1 ≤ i) (h2 : i ≤ (p.nx : ℤ) - 2) (h3 : 1 ≤ j) (h4 : j ≤ (p.ny : ℤ) - 2) :
    (∀ k, (update_macro_var p s).f_old i j k = s.f_new i j k) ∧
    (update_macro_var p s).rho i j = (∑ k : Fin 9, s.f_new i j k) ∧
    (update_macro_var p s).vel i j =
      ((∑ k : Fin 9, ((e k).1 : ℚ) * s.f_new i j k) / (update_macro_var p s).rho i j,
       (∑ k : Fin 9, ((e k).2 : ℚ) * s.f_new i j k) / (update_macro_var p s).rho i j) ∧
    (update_macro_var p s).f_new = s.f_new ∧
    (update_macro_var p s).mask = s.mask ∧
    (∀ a b, ¬ interior p a b →
      (update_macro_var p s).rho a b = s.rho a b ∧
      (update_macro_var p s).vel a b = s.vel a b ∧
      ∀ k, (update_macro_var p s).f_old a b k = s.f_old a b k) := by
  have hin : interior p i j := ⟨h1, by omega, h3, by omega⟩
  refine ⟨fun k => ?_, ?_, ?_, rfl, rfl, fun a b hab => ⟨?_, ?_, fun k => ?_⟩⟩
  · simp only [update_macro_var, if_pos hin]
  · simp only [update_macro_var, if_pos hin]
  · simp only [update_macro_var, if_pos hin]
  · simp only [update_macro_var, if_neg hab]
  · simp only [update_macro_var, if_neg hab]
  · simp only [update_macro_var, if_neg hab]

theorem spec_C2_w :
    ((1 : ℤ) ≤ (pW.nx : ℤ) - 2 ∧ (1 : ℤ) ≤ (pW.ny : ℤ) - 2) ∧
    (update_macro_var pW sW).rho 1 1 = (∑ k : Fin 9, sW.f_new 1 1 k) :=
  ⟨⟨by decide, by decide⟩,
   (spec_C2 pW sW 1 1 (by decide) (by decide) (by decide) (by decide)).2.1⟩

/-- Claim C3: every `apply_bc_core` call (edge or obstacle alike) copies the
neighbour's density into the boundary cell, and then sets each
`f_old[boundary][k]` to `f_eq(boundary) - f_eq(neighbour) + f_old[neighbour][k]`,
where the boundary-state `f_eq` reads the just-assigned boundary velocity and
the copied density (it is the `f_eq` of the post-call state) and the
neighbour state is the pre-call state at the neighbour cell. -/
theorem spec_C3 (p : LBMParams) (s : GridState) (outer : ℕ) (dr : Fin 4)
    (ibc jbc inb jnb : ℤ) (hne : ¬(inb = ibc ∧ jnb = jbc)) :
    (apply_bc_core p s outer dr ibc jbc inb jnb).rho ibc jbc = s.rho inb jnb ∧
    ∀ k, (apply_bc_core p s outer dr ibc jbc inb jnb).f_old ibc jbc k =
      f_eq (apply_bc_core p s outer dr ibc jbc inb jnb) ibc jbc k
        - f_eq s inb jnb k + s.f_old inb jnb k := by
  refine ⟨core_rho_copy p s outer dr ibc jbc inb jnb, fun k => ?_⟩
  have hvn : (apply_bc_core p s outer dr ibc jbc inb jnb).vel inb jnb = s.vel inb jnb :=
    (core_untouched p s outer dr ibc jbc inb jnb inb jnb hne).1
  have hrn : (apply_bc_core p s outer dr ibc jbc inb jnb).rho inb jnb = s.rho inb jnb :=
    (core_untouched p s outer dr ibc jbc inb jnb inb jnb hne).2.1
  have hcongr := f_eq_congr (apply_bc_core p s outer dr ibc jbc inb jnb) s inb jnb hvn hrn k
  rw [← hcongr]
  simp only [apply_bc_core, f_eq]
  simp

theorem spec_C3_w :
    (¬((1 : ℤ) = 0 ∧ (1 : ℤ) = 1)) ∧
    (apply_bc_core pW sW 1 0 0 1 1 1).rho 0 1 = sW.rho 1 1 :=
  ⟨by decide, (spec_C3 pW sW 1 0 0 1 1 1 (by decide)).1⟩

/-- Claim C7: after `init`, every allocated cell has `rho = 1`,
`vel = (0,0)`, `f_old = f_new = f_eq` of that uniform cell state, and
`mask = 1` exactly when the obstacle is enabled and the cell satisfies the
disc inequality (else `mask = 0`); moreover none of the per-step kernels
(`collide_and_stream`, `update_macro_var`, `apply_bc`) ever writes `mask`,
so the mask is computed only at initialization. -/
theorem spec_C7 (p : LBMParams) (s : GridState) (i j : ℤ) (hin : inB p i j) :
    (init p s).rho i j = 1 ∧
    (init p s).vel i j = (0, 0) ∧
    (∀ k, (init p s).f_old i j k = (init p s).f_new i j k) ∧
    (∀ k, (init p s).f_new i j k = f_eq (init p s) i j k) ∧
    ((init p s).mask i j = 1 ↔ p.cy = 1 ∧
      ((i : ℚ) - p.cy_para 0) ^ 2 + ((j : ℚ) - p.cy_para 1) ^ 2 ≤ p.cy_para 2 ^ 2) ∧
    ((init p s).mask i j = 0 ∨ (init p s).mask i j = 1) ∧
    (∀ t, (collide_and_stream p t).mask = t.mask) ∧
    (∀ t, (update_macro_var p t).mask = t.mask) ∧
    (∀ t, (apply_bc p t).mask = t.mask) := by
  refine ⟨?_, ?_, fun k => ?_, fun k => ?_, ?_, ?_,
    fun t => rfl, fun t => rfl, fun t => apply_bc_mask p t⟩
  · simp only [init, if_pos hin]
  · simp only [init, if_pos hin]
  · simp only [init, if_pos hin]
  · simp only [init, if_pos hin]
    rfl
  · simp only [init, if_pos hin]
    split_ifs with hc
    · simp [hc]
    · simp [hc]
  · simp only [init, if_pos hin]
    split_ifs with hc
    · right; rfl
    · left; rfl

theorem spec_C7_w : inB pW 0 0 ∧ (init pW sW).rho 0 0 = 1 :=
  ⟨by decide, (spec_C7 pW sW 0 0 (by decide)).1⟩

/-- Claim C8: the lattice weights sum to `1`, the rest direction is
`e_0 = (0,0)`, and at zero velocity the equilibrium reduces to
`f_eq = w_k · rho`, hence the nine equilibrium values sum to `rho`. -/
theorem spec_C8 :
    (∑ k : Fin 9, w k) = 1 ∧
    e 0 = (0, 0) ∧
    ∀ (s : GridState) (i j : ℤ), s.vel i j = (0, 0) →
      (∀ k, f_eq s i j k = w k * s.rho i j) ∧
      (∑ k : Fin 9, f_eq s i j k) = s.rho i j := by
  have hw : (∑ k : Fin 9, w k) = 1 := by
    simp [Fin.sum_univ_succ, w]
    norm_num
  refine ⟨hw, rfl, fun s i j h => ?_⟩
  have hz : ∀ k, f_eq s i j k = w k * s.rho i j := by
    intro k
    unfold f_eq
    rw [h]
    norm_num
  refine ⟨hz, ?_⟩
  calc (∑ k : Fin 9, f_eq s i j k)
      = ∑ k : Fin 9, w k * s.rho i j := Finset.sum_congr rfl (fun k _ => hz k)
    _ = (∑ k : Fin 9, w k) * s.rho i j := by rw [Finset.sum_mul]
    _ = 1 * s.rho i j := by rw [hw]
    _ = s.rho i j := one_mul _

theorem spec_C8_w :
    sW.vel 0 0 = (0, 0) ∧ (∑ k : Fin 9, f_eq sW 0 0 k) = sW.rho 0 0 :=
  ⟨rfl, (spec_C8.2.2 sW 0 0 rfl).2⟩

/-- Claim C5: after one `apply_bc` (with the obstacle not interfering),
every cell governed by a Dirichlet edge carries exactly that edge's
configured velocity, and every cell governed by a Neumann edge carries the
velocity of its adjacent inward neighbour in the same post-`apply_bc` state.
The left/right edge governs the non-corner column cells; the top/bottom
edge governs its full row, corners included. -/
theorem spec_C5 (p : LBMParams) (s : GridState) (hnx : 3 ≤ p.nx) (hny : 3 ≤ p.ny)
    (hobs : ∀ a b : ℤ, ¬(p.cy = 1 ∧ s.mask a b = 1)) :
    (∀ j : ℤ, 1 ≤ j → j ≤ (p.ny : ℤ) - 2 →
      (p.bc_type 0 = 0 → (apply_bc p s).vel 0 j = p.bc_value 0) ∧
      (p.bc_type 0 = 1 → (apply_bc p s).vel 0 j = (apply_bc p s).vel 1 j) ∧
      (p.bc_type 2 = 0 → (apply_bc p s).vel ((p.nx : ℤ) - 1) j = p.bc_value 2) ∧
      (p.bc_type 2 = 1 → (apply_bc p s).vel ((p.nx : ℤ) - 1) j
        = (apply_bc p s).vel ((p.nx : ℤ) - 2) j)) ∧
    (∀ i : ℤ, 0 ≤ i → i ≤ (p.nx : ℤ) - 1 →
      (p.bc_type 1 = 0 → (apply_bc p s).vel i ((p.ny : ℤ) - 1) = p.bc_value 1) ∧
      (p.bc_type 1 = 1 → (apply_bc p s).vel i ((p.ny : ℤ) - 1)
        = (apply_bc p s).vel i ((p.ny : ℤ) - 2)) ∧
      (p.bc_type 3 = 0 → (apply_bc p s).vel i 0 = p.bc_value 3) ∧
      (p.bc_type 3 = 1 → (apply_bc p s).vel i 0 = (apply_bc p s).vel i 1)) := by
  constructor
  · intro j hj1 hj2
    have hl := apply_bc_vel_left p s hnx hny j hj1 hj2 (hobs 0 j) (hobs 1 j)
    have hr := apply_bc_vel_right p s hnx hny j hj1 hj2
      (hobs ((p.nx : ℤ) - 1) j) (hobs ((p.nx : ℤ) - 2) j)
    exact ⟨hl.1, hl.2, hr.1, hr.2⟩
  · intro i hi1 hi2
    have ht := apply_bc_vel_top p s hnx hny i hi1 hi2
      (hobs i ((p.ny : ℤ) - 1)) (hobs i ((p.ny : ℤ) - 2))
    have hb := apply_bc_vel_bot p s hnx hny i hi1 hi2 (hobs i 0) (hobs i 1)
    exact ⟨ht.1, ht.2, hb.1, hb.2⟩

theorem spec_C5_w :
    (3 ≤ pW.nx ∧ 3 ≤ pW.ny ∧ pW.bc_type 0 = 0) ∧
    (apply_bc pW sW).vel 0 1 = pW.bc_value 0 :=
  ⟨⟨by decide, by decide, by decide⟩,
   ((spec_C5 pW sW (by decide) (by decide)
      (fun a b h => absurd h.1 (by decide))).1 1 (by decide) (by decide)).1 (by decide)⟩

/-- Claim C6: with the obstacle enabled, after `apply_bc` every masked cell
has velocity exactly `(0, 0)`; the treatment of a masked cell is the shared
non-equilibrium extrapolation core applied to the zero-velocity boundary
state, with the outward neighbour chosen per axis as `index + 1` when the
index is on the high side of the obstacle centre and `index - 1` otherwise. -/
theorem spec_C6 (p : LBMParams) (s : GridState) (i j : ℤ)
    (hcy : p.cy = 1) (hm : s.mask i j = 1) (hin : inB p i j) :
    (apply_bc p s).vel i j = (0, 0) ∧
    obstacleCell p s i j = apply_bc_core p (zeroVelAt s i j) 0 0 i j
      (obstacleNeighbor p i j).1 (obstacleNeighbor p i j).2 ∧
    (p.cy_para 0 ≤ (i : ℚ) → (obstacleNeighbor p i j).1 = i + 1) ∧
    (¬ p.cy_para 0 ≤ (i : ℚ) → (obstacleNeighbor p i j).1 = i - 1) ∧
    (p.cy_para 1 ≤ (j : ℚ) → (obstacleNeighbor p i j).2 = j + 1) ∧
    (¬ p.cy_para 1 ≤ (j : ℚ) → (obstacleNeighbor p i j).2 = j - 1) := by
  refine ⟨apply_bc_vel_masked p s i j hcy hm hin, ?_,
    fun h => ?_, fun h => ?_, fun h => ?_, fun h => ?_⟩
  · unfold obstacleCell
    rw [if_pos ⟨hcy, hm⟩]
  · simp only [obstacleNeighbor]
    rw [if_pos h]
  · simp only [obstacleNeighbor]
    rw [if_neg h]
  · simp only [obstacleNeighbor]
    rw [if_pos h]
  · simp only [obstacleNeighbor]
    rw [if_neg h]

theorem spec_C6_w :
    (pObs.cy = 1 ∧ sObs.mask 2 2 = 1 ∧ inB pObs 2 2) ∧
    (apply_bc pObs sObs).vel 2 2 = (0, 0) :=
  ⟨⟨by decide, by decide, by decide⟩,
   (spec_C6 pObs sObs 2 2 (by decide) (by decide) (by decide)).1⟩

/-! ### Characterization of the full edge-call lists -/

theorem mem_lrCalls_iff (p : LBMParams) (c : BCCall) :
    c ∈ lrCalls p ↔
      ∃ j : ℤ, 0 ≤ j ∧ j ≤ (p.ny : ℤ) - 2 ∧ (c = leftCall j ∨ c = rightCall p j) := by
  rw [lrCalls, mem_lrCallsN]
  constructor
  · rintro ⟨t, ht, h⟩
    exact ⟨(t : ℤ), by omega, by omega, h⟩
  · rintro ⟨j, h1, h2, h⟩
    refine ⟨j.toNat, by omega, ?_⟩
    have hj : ((j.toNat : ℕ) : ℤ) = j := by omega
    rw [hj]
    exact h

theorem mem_tbCalls_iff (p : LBMParams) (c : BCCall) :
    c ∈ tbCalls p ↔
      ∃ i : ℤ, 0 ≤ i ∧ i ≤ (p.nx : ℤ) - 1 ∧ (c = topCall p i ∨ c = botCall i) := by
  rw [tbCalls, mem_tbCallsN]
  constructor
  · rintro ⟨t, ht, h⟩
    exact ⟨(t : ℤ), by omega, by omega, h⟩
  · rintro ⟨i, h1, h2, h⟩
    refine ⟨i.toNat, by omega, ?_⟩
    have hi : ((i.toNat : ℕ) : ℤ) = i := by omega
    rw [hi]
    exact h

/-- Counterexample to claim C4 as stated: the left/right loop
`for j in ti.ndrange(1, self.ny - 1)` flattens the 2-D index set
`[0,1) × [0, ny-1)`, so it also runs at the non-interior index `j = 0`
(violating `1 ≤ j`), and the corner cell `(0, 0)` is the write target of
both a left-edge call and a bottom-edge call, i.e. of two edges' loops. -/
theorem spec_C4_cex :
    leftCall 0 ∈ lrCalls pW ∧
    (leftCall 0).jbc = 0 ∧ ¬(1 ≤ (leftCall 0).jbc) ∧
    botCall 0 ∈ tbCalls pW ∧
    (leftCall 0).ibc = 0 ∧ (botCall 0).ibc = 0 ∧ (botCall 0).jbc = 0 :=
  ⟨by decide, rfl, by decide, by decide, rfl, rfl, rfl⟩

/-- Claim C4 (amended): the left and right edge conditions are applied
exactly at the boundary cells with `0 ≤ j ≤ ny - 2` (the flattened
`ti.ndrange(1, ny-1)` loop includes `j = 0` and excludes `j = ny - 1`), the
top and bottom conditions over the full `0 ≤ i ≤ nx - 1`; the corners at
`j = ny - 1` are each targeted by exactly one edge call (the top edge's),
while the corners at `j = 0` are targeted by a left/right call and by the
bottom call — and since the top/bottom loop runs after the left/right loop
in the fixed program order, the winner at every corner is still determined
by that fixed order of edge processing, not by parallel iteration order. -/
theorem spec_C4 (p : LBMParams) (hnx : 2 ≤ p.nx) (hny : 2 ≤ p.ny) :
    (∀ c : BCCall, c ∈ lrCalls p ↔
      ∃ j : ℤ, 0 ≤ j ∧ j ≤ (p.ny : ℤ) - 2 ∧ (c = leftCall j ∨ c = rightCall p j)) ∧
    (∀ c : BCCall, c ∈ tbCalls p ↔
      ∃ i : ℤ, 0 ≤ i ∧ i ≤ (p.nx : ℤ) - 1 ∧ (c = topCall p i ∨ c = botCall i)) ∧
    (∀ c ∈ lrCalls p ++ tbCalls p,
      (c.ibc = 0 ∧ c.jbc = (p.ny : ℤ) - 1) ↔ c = topCall p 0) ∧
    (∀ c ∈ lrCalls p ++ tbCalls p,
      (c.ibc = (p.nx : ℤ) - 1 ∧ c.jbc = (p.ny : ℤ) - 1) ↔
        c = topCall p ((p.nx : ℤ) - 1)) ∧
    (∀ c ∈ lrCalls p ++ tbCalls p,
      (c.ibc = 0 ∧ c.jbc = 0) ↔ (c = leftCall 0 ∨ c = botCall 0)) ∧
    (∀ c ∈ lrCalls p ++ tbCalls p,
      (c.ibc = (p.nx : ℤ) - 1 ∧ c.jbc = 0) ↔
        (c = rightCall p 0 ∨ c = botCall ((p.nx : ℤ) - 1))) ∧
    topCall p 0 ∈ tbCalls p ∧ topCall p ((p.nx : ℤ) - 1) ∈ tbCalls p ∧
    leftCall 0 ∈ lrCalls p ∧ rightCall p 0 ∈ lrCalls p ∧
    botCall 0 ∈ tbCalls p ∧ botCall ((p.nx : ℤ) - 1) ∈ tbCalls p := by
  have hL : ∀ j : ℤ, 0 ≤ j → j ≤ (p.ny : ℤ) - 2 → leftCall j ∈ lrCalls p :=
    fun j h1 h2 => (mem_lrCalls_iff p _).mpr ⟨j, h1, h2, Or.inl rfl⟩
  have hR : ∀ j : ℤ, 0 ≤ j → j ≤ (p.ny : ℤ) - 2 → rightCall p j ∈ lrCalls p :=
    fun j h1 h2 => (mem_lrCalls_iff p _).mpr ⟨j, h1, h2, Or.inr rfl⟩
  have hT : ∀ i : ℤ, 0 ≤ i → i ≤ (p.nx : ℤ) - 1 → topCall p i ∈ tbCalls p :=
    fun i h1 h2 => (mem_tbCalls_iff p _).mpr ⟨i, h1, h2, Or.inl rfl⟩
  have hB : ∀ i : ℤ, 0 ≤ i → i ≤ (p.nx : ℤ) - 1 → botCall i ∈ tbCalls p :=
    fun i h1 h2 => (mem_tbCalls_iff p _).mpr ⟨i, h1, h2, Or.inr rfl⟩
  refine ⟨mem_lrCalls_iff p, mem_tbCalls_iff p, ?_, ?_, ?_, ?_,
    hT 0 (by omega) (by omega), hT _ (by omega) (by omega),
    hL 0 (by omega) (by omega), hR 0 (by omega) (by omega),
    hB 0 (by omega) (by omega), hB _ (by omega) (by omega)⟩
  · intro c hc
    constructor
    · rintro ⟨hci, hcj⟩
      rcases List.mem_append.mp hc with hlr | htb
      · obtain ⟨j0, hj0, hj1, hcase⟩ := (mem_lrCalls_iff p c).mp hlr
        rcases hcase with h | h <;> subst h <;>
          simp only [leftCall, rightCall] at hci hcj <;> exfalso <;> omega
      · obtain ⟨i0, hi0, hi1, hcase⟩ := (mem_tbCalls_iff p c).mp htb
        rcases hcase with h | h <;> subst h <;>
          simp only [topCall, botCall] at hci hcj
        · rw [hci]
        · exfalso; omega
    · intro h
      subst h
      exact ⟨rfl, rfl⟩
  · intro c hc
    constructor
    · rintro ⟨hci, hcj⟩
      rcases List.mem_append.mp hc with hlr | htb
      · obtain ⟨j0, hj0, hj1, hcase⟩ := (mem_lrCalls_iff p c).mp hlr
        rcases hcase with h | h <;> subst h <;>
          simp only [leftCall, rightCall] at hci hcj <;> exfalso <;> omega
      · obtain ⟨i0, hi0, hi1, hcase⟩ := (mem_tbCalls_iff p c).mp htb
        rcases hcase with h | h <;> subst h <;>
          simp only [topCall, botCall] at hci hcj
        · rw [hci]
        · exfalso; omega
    · intro h
      subst h
      exact ⟨rfl, rfl⟩
  · intro c hc
    constructor
    · rintro ⟨hci, hcj⟩
      rcases List.mem_append.mp hc with hlr | htb
      · obtain ⟨j0, hj0, hj1, hcase⟩ := (mem_lrCalls_iff p c).mp hlr
        rcases hcase with h | h <;> subst h <;>
          simp only [leftCall, rightCall] at hci hcj
        · left; rw [hcj]
        · exfalso; omega
      · obtain ⟨i0, hi0, hi1, hcase⟩ := (mem_tbCalls_iff p c).mp htb
        rcases hcase with h | h <;> subst h <;>
          simp only [topCall, botCall] at hci hcj
        · exfalso; omega
        · right; rw [hci]
    · rintro (h | h) <;> subst h <;> exact ⟨rfl, rfl⟩
  · intro c hc
    constructor
    · rintro ⟨hci, hcj⟩
      rcases List.mem_append.mp hc with hlr | htb
      · obtain ⟨j0, hj0, hj1, hcase⟩ := (mem_lrCalls_iff p c).mp hlr
        rcases hcase with h | h <;> subst h <;>
          simp only [leftCall, rightCall] at hci hcj
        · exfalso; omega
        · left; rw [hcj]
      · obtain ⟨i0, hi0, hi1, hcase⟩ := (mem_tbCalls_iff p c).mp htb
        rcases hcase with h | h <;> subst h <;>
          simp only [topCall, botCall] at hci hcj
        · exfalso; omega
        · right; rw [hci]
    · rintro (h | h) <;> subst h <;> exact ⟨rfl, rfl⟩

theorem spec_C4_w :
    (2 ≤ pObs.nx ∧ 2 ≤ pObs.ny) ∧ topCall pObs 0 ∈ tbCalls pObs :=
  ⟨⟨by decide, by decide⟩,
   (spec_C4 pObs (by decide) (by decide)).2.2.2.2.2.2.1⟩

/-- Claim C9: with the obstacle enabled and a masked cell on the outermost
ring on the high side of the obstacle centre, the chosen neighbour index is
`nx` (out of `[0, nx) × [0, ny)`), so `apply_bc` accesses `rho`, `vel` and
`f_old` out of bounds; conversely, when no masked cell touches the
outermost ring, every index accessed by `apply_bc` is inside the grid. -/
theorem spec_C9 :
    ((obstacleNeighbor pRing 3 2).1 = (pRing.nx : ℤ) ∧
     sRing.mask ((pRing.nx : ℤ) - 1) 2 = 1 ∧
     ((pRing.nx : ℤ), (1 : ℤ)) ∈ bcAccesses pRing sRing ∧
     ¬ inB pRing (pRing.nx : ℤ) 1) ∧
    (∀ (p : LBMParams) (s : GridState), 2 ≤ p.nx → 2 ≤ p.ny →
      (∀ i j : ℤ, inB p i j → s.mask i j = 1 → interior p i j) →
      ∀ a ∈ bcAccesses p s, inB p a.1 a.2) := by
  refine ⟨⟨by decide, by decide, by decide, by decide⟩, ?_⟩
  intro p s hnx hny hmask a ha
  rcases List.mem_append.mp ha with hedge | hobs
  · obtain ⟨c, hc, hacc⟩ := List.mem_flatMap.mp hedge
    have hacc2 : a = (c.ibc, c.jbc) ∨ a = (c.inb, c.jnb) := by
      rcases List.mem_cons.mp hacc with h | h
      · exact Or.inl h
      · exact Or.inr (List.mem_singleton.mp h)
    rcases List.mem_append.mp hc with hlr | htb
    · obtain ⟨j0, hj0, hj1, hcase⟩ := (mem_lrCalls_iff p c).mp hlr
      rcases hcase with h | h <;> subst h <;> rcases hacc2 with h2 | h2 <;> subst h2 <;>
        simp only [leftCall, rightCall, inB] <;>
        exact ⟨by omega, by omega, by omega, by omega⟩
    · obtain ⟨i0, hi0, hi1, hcase⟩ := (mem_tbCalls_iff p c).mp htb
      rcases hcase with h | h <;> subst h <;> rcases hacc2 with h2 | h2 <;> subst h2 <;>
        simp only [topCall, botCall, inB] <;>
        exact ⟨by omega, by omega, by omega, by omega⟩
  · obtain ⟨ab, hab, hina⟩ := List.mem_flatMap.mp hobs
    obtain ⟨a0, b0⟩ := ab
    by_cases hcm : p.cy = 1 ∧ s.mask a0 b0 = 1
    · rw [if_pos hcm] at hina
      have hinb : inB p a0 b0 := (mem_gridCells p a0 b0).mp hab
      have hintr : interior p a0 b0 := hmask a0 b0 hinb hcm.2
      obtain ⟨q1, q2, q3, q4⟩ := hintr
      rcases List.mem_cons.mp hina with h2 | h2
      · subst h2
        exact hinb
      · have h3 := List.mem_singleton.mp h2
        subst h3
        simp only [obstacleNeighbor, inB]
        split_ifs <;> exact ⟨by omega, by omega, by omega, by omega⟩
    · rw [if_neg hcm] at hina
      exact absurd hina (List.not_mem_nil a)

theorem spec_C9_w : (2 ≤ pObs.nx ∧ 2 ≤ pObs.ny) ∧ inB pObs 0 1 :=
  ⟨⟨by decide, by decide⟩,
   spec_C9.2 pObs sObs (by decide) (by decide)
     (fun i j hin hm => by
       by_cases hc : i = 2 ∧ j = 2
       · obtain ⟨hi, hj⟩ := hc
         subst hi
         subst hj
         decide
       · exfalso
         simp only [sObs] at hm
         rw [if_neg hc] at hm
         exact absurd hm (by norm_num))
     (0, 1) (by decide)⟩

/-- The run relation is a function of the step count: the pipeline is
deterministic. -/
theorem steps_unique (p : LBMParams) :
    ∀ (n : ℕ) (s t1 t2 : GridState), Steps p s n t1 → Steps p s n t2 → t1 = t2 := by
  intro n
  induction n with
  | zero =>
    intro s t1 t2 h1 h2
    cases h1
    cases h2
    rfl
  | succ n ih =>
    intro s t1 t2 h1 h2
    cases h1 with
    | succ _ u1 hu1 =>
      cases h2 with
      | succ _ u2 hu2 =>
        rw [ih s u1 u2 hu1 hu2]

/-- Claim C10: running the per-step pipeline (`collide_and_stream`,
`update_macro_var`, `apply_bc`) the same number of steps twice from the same
initial state and parameters yields identical density and velocity fields:
the pipeline is a deterministic function of the prior grid state and the
immutable parameters. -/
theorem spec_C10 (p : LBMParams) (s : GridState) (n : ℕ) (t1 t2 : GridState)
    (h1 : Steps p s n t1) (h2 : Steps p s n t2) :
    t1.rho = t2.rho ∧ t1.vel = t2.vel := by
  rw [steps_unique p n s t1 t2 h1 h2]
  exact ⟨rfl, rfl⟩

theorem spec_C10_w :
    (lbm_step pW sW).rho = (lbm_step pW sW).rho ∧
    (lbm_step pW sW).vel = (lbm_step pW sW).vel :=
  spec_C10 pW sW 1 (lbm_step pW sW) (lbm_step pW sW)
    (Steps.succ _ _ _ (Steps.zero _)) (Steps.succ _ _ _ (Steps.zero _))

end LBM
